import Mathlib

/-!
Shallow embedding of the adaptive GIF size-targeting search in `main.py`
(`compress_gif` and its helpers `_crop_gif`, `_adjust_frames`,
`_compress_with_pillow`), together with theorems checking the
specification's claims about it.

Modelling conventions:
* File contents are byte lists (`List ℕ`); a file's size is its length.
* The external encoder (gifsicle) and the Pillow fallback are abstracted as
  an oracle `enc : Settings → Option (List ℕ)`: `some bytes` means the
  encode attempt wrote `bytes` to the temp output file, `none` means the
  attempt failed (gifsicle exiting non-zero writes nothing and the search
  continues, because `subprocess.run` is called without `check=True`;
  a Pillow failure is a raised exception, modelled as `Except.error`
  carrying the loop state at the moment the exception propagates).
* Scale factors are represented in tenths (`10` = 1.0, `9` = 0.9, ...),
  which is exact for every value occurring in the code.
* Python `int()` applied to a nonnegative quotient is truncation toward
  zero, modelled on `ℚ` by `Int.tdiv` of numerator and denominator.
-/

/-- One encoder parameter combination `(lossy, colors, scale)`;
`scale10` is the scale factor in tenths (`10` = 1.0). -/
structure Settings where
  lossy : ℕ
  colors : ℕ
  scale10 : ℕ
deriving DecidableEq

/-- The configuration surface of `compress_gif` that the search loop reads,
plus `use_gifsicle`, the result of probing gifsicle availability once per
run. `target` is `target_size_bytes`. -/
structure Config where
  target : ℕ
  max_attempts : ℕ
  min_colors : ℕ
  min_scale10 : ℕ
  force_scaling : Bool
  use_gifsicle : Bool
deriving DecidableEq

/-- The mutable state of the search loop in `compress_gif`:
`attempts`, `best_size`, the saved best artifact (`best_output`, `none`
while no candidate has been adopted), the current content of the
`temp_output` file (created empty by `NamedTemporaryFile`), the sizes
accepted by the tracker in order (the progress reports), and the codec
invocations made so far in order. -/
structure LoopState where
  attempts : ℕ
  best_size : ℕ
  best : Option (List ℕ)
  temp : List ℕ
  accepted : List ℕ
  log : List Settings
deriving DecidableEq

/-- `lossy_values = [0, 30, 60, 90, 120, 150, 200]` from `compress_gif`. -/
def lossy_values : List ℕ := [0, 30, 60, 90, 120, 150, 200]

/-- `color_values = [c for c in [256,192,128,96,64,32] if c >= min_colors]`,
with the `[min_colors]` fallback when the filter empties the list. -/
def color_values (min_colors : ℕ) : List ℕ :=
  let l := [256, 192, 128, 96, 64, 32].filter (fun c => min_colors ≤ c)
  if l.isEmpty then [min_colors] else l

/-- `scale_values = [s for s in [1.0,0.9,...,0.4] if s >= min_scale]` in
tenths, with the `[min_scale]` fallback when the filter empties the list. -/
def scale_values (min_scale10 : ℕ) : List ℕ :=
  let l := [10, 9, 8, 7, 6, 5, 4].filter (fun s => min_scale10 ≤ s)
  if l.isEmpty then [min_scale10] else l

/-- `first_pass_scales = [1.0] if not force_scaling else scale_values`. -/
def first_pass_scales (cfg : Config) : List ℕ :=
  if cfg.force_scaling then scale_values cfg.min_scale10 else [10]

/-- Loop state at entry: zero attempts, `best_size = original_size`,
no saved best, an empty temp file, nothing accepted, nothing invoked. -/
def initState (original : ℕ) : LoopState :=
  { attempts := 0, best_size := original, best := none, temp := [],
    accepted := [], log := [] }

/-- The post-encode bookkeeping shared by both passes: read
`current_size = os.path.getsize(temp_output)`; if it strictly improves on
`best_size`, adopt the temp content as the new best and record the size;
the returned flag is `best_size <= target_size_bytes`, the innermost
`break` condition. -/
def recordBest (cfg : Config) (s : LoopState) : LoopState × Bool :=
  if s.temp.length < s.best_size then
    ({ s with best_size := s.temp.length, best := some s.temp,
              accepted := s.accepted ++ [s.temp.length] },
     decide (s.temp.length ≤ cfg.target))
  else (s, false)

/-- One encode attempt: increment `attempts`, invoke the codec adapter
(logged), then run the bookkeeping. A failing gifsicle invocation
(`enc st = none` with `use_gifsicle`) writes nothing, so the temp file
keeps its previous content and the size check still runs; a failing
Pillow invocation raises, aborting `compress_gif` (`Except.error`). -/
def attemptStep (cfg : Config) (enc : Settings → Option (List ℕ))
    (st : Settings) (s : LoopState) : Except LoopState (LoopState × Bool) :=
  let s1 := { s with attempts := s.attempts + 1, log := s.log ++ [st] }
  match enc st with
  | some bytes => .ok (recordBest cfg { s1 with temp := bytes })
  | none => if cfg.use_gifsicle then .ok (recordBest cfg s1) else .error s1

/-- The innermost `for colors in color_values` loop. Each iteration first
checks the budget (`if attempts >= max_attempts: break`); after a
successful attempt, the target-met flag breaks out of this loop only. -/
def colorsLoop (cfg : Config) (enc : Settings → Option (List ℕ))
    (sc lz : ℕ) : List ℕ → LoopState → Except LoopState LoopState
  | [], s => .ok s
  | c :: cs, s =>
    if cfg.max_attempts ≤ s.attempts then .ok s
    else
      match attemptStep cfg enc ⟨lz, c, sc⟩ s with
      | .error s1 => .error s1
      | .ok (s1, true) => .ok s1
      | .ok (s1, false) => colorsLoop cfg enc sc lz cs s1

/-- The middle `for lossy in ...` loop at a fixed scale: runs the colors
loop for each lossy value in turn (a `break` in the colors loop does not
break this loop). -/
def lossyLoop (cfg : Config) (enc : Settings → Option (List ℕ))
    (sc : ℕ) : List ℕ → LoopState → Except LoopState LoopState
  | [], s => .ok s
  | lz :: lzs, s =>
    match colorsLoop cfg enc sc lz (color_values cfg.min_colors) s with
    | .error s1 => .error s1
    | .ok s1 => lossyLoop cfg enc sc lzs s1

/-- The outer `for scale in ...` loop: runs the lossy loop (over the given
lossy list) for each scale in turn. -/
def scalesLoop (cfg : Config) (enc : Settings → Option (List ℕ))
    (lzs : List ℕ) : List ℕ → LoopState → Except LoopState LoopState
  | [], s => .ok s
  | sc :: scs, s =>
    match lossyLoop cfg enc sc lzs s with
    | .error s1 => .error s1
    | .ok s1 => scalesLoop cfg enc lzs scs s1

/-- Pass 1 of `compress_gif`: the full `lossy_values` sweep over
`first_pass_scales`, starting from the initial state for an input of the
given length. -/
def pass1run (input : List ℕ) (cfg : Config)
    (enc : Settings → Option (List ℕ)) : Except LoopState LoopState :=
  scalesLoop cfg enc lossy_values (first_pass_scales cfg)
    (initState input.length)

/-- The guard of pass 2:
`if best_size > target_size_bytes and not force_scaling`. -/
def pass2cond (cfg : Config) (s : LoopState) : Bool :=
  decide (cfg.target < s.best_size) && !cfg.force_scaling

/-- The result of a completed run: the bytes copied to `output_path`, the
returned `(original_size, new_size)` pair, and the final loop state. -/
structure RunResult where
  output : List ℕ
  ret : ℕ × ℕ
  final : LoopState
deriving DecidableEq

/-- Pass 2 of `compress_gif`, run from the state pass 1 ended in: only
when still above target and scaling was not already forced into pass 1;
it sweeps the scales after the unscaled first entry with the more
aggressive lossy subset `[60, 120, 200]` and the same colors. -/
def pass2run (cfg : Config) (enc : Settings → Option (List ℕ))
    (s : LoopState) : Except LoopState LoopState :=
  if pass2cond cfg s then
    scalesLoop cfg enc [60, 120, 200] (scale_values cfg.min_scale10).tail s
  else .ok s

/-- The cleanup at the end of `compress_gif`: copy the saved best to the
output path when one exists, otherwise copy the raw temp file (the last
attempt's output), and return `(original_size, new_size)`. -/
def finishRun (original : ℕ) (s2 : LoopState) : Except LoopState RunResult :=
  match s2.best with
  | some bs => .ok ⟨bs, (original, bs.length), s2⟩
  | none => .ok ⟨s2.temp, (original, s2.temp.length), s2⟩

/-- The core of `compress_gif` from `main.py`. If the input is already at
or under target, copy it and return `(original, original)` with zero
attempts. Otherwise run pass 1, conditionally pass 2, then write the
result. Preprocessing (`_crop_gif`, `_adjust_frames`) only rewrites the
artifact handed to the encoder and is modelled separately on the `GIF`
type; the oracle `enc` abstracts the encoder's behaviour on that fixed
artifact. -/
def compress_gif (input : List ℕ) (cfg : Config)
    (enc : Settings → Option (List ℕ)) : Except LoopState RunResult :=
  let original := input.length
  if original ≤ cfg.target then
    .ok ⟨input, (original, original), initState original⟩
  else
    match pass1run input cfg enc with
    | .error s => .error s
    | .ok s =>
      match pass2run cfg enc s with
      | .error s2 => .error s2
      | .ok s2 => finishRun original s2

/-- Extract the loop state from a pass result, whether it completed or
aborted with an exception. -/
def outState : Except LoopState LoopState → LoopState
  | .ok s => s
  | .error s => s

/-- The loop state a run ended in (final state on normal return, the state
at the moment the exception propagated otherwise). -/
def traceOf : Except LoopState RunResult → LoopState
  | .ok r => r.final
  | .error s => s

/-- The bytes written to the output path, `none` if the run aborted. -/
def runOutput : Except LoopState RunResult → Option (List ℕ)
  | .ok r => some r.output
  | .error _ => none

/-- The `(original_size, new_size)` pair returned, `none` on abort. -/
def runRet : Except LoopState RunResult → Option (ℕ × ℕ)
  | .ok r => some r.ret
  | .error _ => none

/-- The state carried by a propagated exception, `none` on normal return. -/
def runErr : Except LoopState RunResult → Option LoopState
  | .ok _ => none
  | .error s => some s

/-- One GIF frame as the preprocessing helpers see it: a pixel lookup
function, a display duration (`frame.info.get("duration", ...)`, absent
when the frame carries none) and a disposal method
(`frame.disposal_method`, absent when the attribute is missing). -/
structure Frame where
  pix : ℕ → ℕ → ℕ
  duration : Option ℤ
  disposal : Option ℕ

/-- An animated GIF as `Image.open` presents it: canvas width and height
shared by all frames, the frame sequence, and the loop count
(`img.info.get("loop", 0)`; Pillow reports 0 when the key is absent). -/
structure GIF where
  w : ℕ
  h : ℕ
  frames : List Frame
  loop : ℕ

/-- Python `int()` on a rational value: truncation toward zero. -/
def truncInt (q : ℚ) : ℤ := q.num.tdiv q.den

/-- Exact rational division, written out on numerators and denominators so
that the kernel can evaluate it (`Rat.div` is marked irreducible);
`ratDiv_eq_div` below proves it equal to `/` on `ℚ`. -/
def ratDiv (a b : ℚ) : ℚ := Rat.divInt (a.num * b.den) (a.den * b.num)

/-- Modelled from the spec: the ceiling `⌈q⌉` of a rational, written with
`Int.fdiv` so the kernel can evaluate it; `spec_ceil_eq` below proves it
equal to Mathlib's `⌈q⌉`. Used only to state the specification's claimed
`⌈1/sample_rate⌉` sampling stride (the code uses `int()` truncation). -/
def spec_ceil (q : ℚ) : ℤ := -((-q).num.fdiv ((-q).den : ℤ))

/-- What `_adjust_frames` does to one retained frame: keep the pixels,
set its duration to `int(orig_duration * duration_factor)` with
`orig_duration = frame.info.get("duration", 100)`, and record
`frame.disposal_method if hasattr(...) else 2`. -/
def adjustFrame (df : ℚ) (f : Frame) : Frame :=
  { pix := f.pix,
    duration := some (truncInt ((f.duration.getD 100 : ℤ) * df)),
    disposal := some (f.disposal.getD 2) }

/-- The frame-collection loop of `_adjust_frames`: starting at index `i`,
skip frame `i` when `sample_rate < 1.0` and `i % int(1/sample_rate) != 0`,
otherwise retain its adjusted form. -/
def adjustLoop (sr df : ℚ) : ℕ → List Frame → List Frame
  | _, [] => []
  | i, f :: fs =>
    if sr < 1 ∧ i % (truncInt (ratDiv 1 sr)).toNat ≠ 0 then
      adjustLoop sr df (i + 1) fs
    else
      adjustFrame df f :: adjustLoop sr df (i + 1) fs

/-- `_adjust_frames` from `main.py`: collect the sampled, duration-adjusted
frames; if none were collected, copy the input unchanged. -/
def _adjust_frames (g : GIF) (sr df : ℚ) : GIF :=
  let fs := adjustLoop sr df 0 g.frames
  if fs.isEmpty then g else { g with frames := fs }

/-- What `_crop_gif` does to one frame: crop the pixel window by the left
and top margins (the new canvas bounds the right/bottom), and record the
duration (default 100) and disposal (default 2) exactly as
`_adjust_frames` does. -/
def cropFrame (l t : ℕ) (f : Frame) : Frame :=
  { pix := fun x y => f.pix (x + l) (y + t),
    duration := some (f.duration.getD 100),
    disposal := some (f.disposal.getD 2) }

/-- `_crop_gif` from `main.py`: compute the new dimensions; if either is
non-positive, copy the input unchanged; otherwise crop every frame,
carrying durations, disposals and loop count over; if the frame list is
empty, copy the input unchanged. -/
def _crop_gif (g : GIF) (l t r b : ℕ) : GIF :=
  let nw : ℤ := (g.w : ℤ) - l - r
  let nh : ℤ := (g.h : ℤ) - t - b
  if nw ≤ 0 ∨ nh ≤ 0 then g
  else
    let fs := g.frames.map (cropFrame l t)
    if fs.isEmpty then g
    else { w := nw.toNat, h := nh.toNat, frames := fs, loop := g.loop }

/-- A 12-byte input file (over the 5-byte targets used below). -/
def inC : List ℕ := List.replicate 12 0

/-- A configuration with target 5 bytes, `min_colors = 256` (so the color
list collapses to `[256]`), no forced scaling; the attempt budget and the
adapter choice are the parameters. -/
def cfgC (m : ℕ) (g : Bool) : Config :=
  { target := 5, max_attempts := m, min_colors := 256, min_scale10 := 4,
    force_scaling := false, use_gifsicle := g }

/-- An encoder that always succeeds with a 3-byte output (under target). -/
def encOk : Settings → Option (List ℕ) := fun _ => some [0, 0, 0]

/-- An encoder whose every attempt fails (gifsicle exiting non-zero /
Pillow raising). -/
def encNone : Settings → Option (List ℕ) := fun _ => none

/-- A 3-byte input file (already under the 5-byte target). -/
def inSmall : List ℕ := [1, 2, 3]

/-- A frame with constant pixels, duration 100 and disposal 2. -/
def fr3 : Frame := ⟨fun _ _ => 0, some 100, some 2⟩

/-- A 4-frame 10×10 test GIF. -/
def g3 : GIF := ⟨10, 10, [fr3, fr3, fr3, fr3], 0⟩

/-- A 1-frame 100×100 test GIF with a partially-absent metadata frame. -/
def gW : GIF := ⟨100, 100, [⟨fun _ _ => 0, some 50, none⟩], 3⟩

/-- The loop invariant of the search: the sizes accepted by the tracker,
prefixed with the original size, form a strictly decreasing chain;
`best_size` is the last accepted size (`original` while none); the saved
best artifact has exactly `best_size` bytes; no artifact is saved before
the first acceptance; the attempt counter respects the budget and counts
exactly the logged codec invocations. -/
structure SearchInv (cfg : Config) (orig : ℕ) (s : LoopState) : Prop where
  chain : List.Chain' (fun a b => b < a) (orig :: s.accepted)
  bestEq : s.best_size = s.accepted.getLastD orig
  bestCorr : ∀ bs, s.best = some bs → bs.length = s.best_size
  bestNone : s.best = none → s.accepted = [] ∧ s.best_size = orig
  attemptsLe : s.attempts ≤ cfg.max_attempts
  attemptsLog : s.attempts = s.log.length

/-- `ratDiv` agrees with Mathlib's division on `ℚ`. -/
theorem ratDiv_eq_div (a b : ℚ) : ratDiv a b = a / b := by
  rw [ratDiv, Rat.divInt_eq_div]
  conv_rhs => rw [← Rat.num_div_den a, ← Rat.num_div_den b]
  rcases eq_or_ne b.num 0 with hb | hb
  · simp [hb]
  · have had : ((a.den : ℚ)) ≠ 0 := by
      exact_mod_cast a.den_nz
    have hbd : ((b.den : ℚ)) ≠ 0 := by
      exact_mod_cast b.den_nz
    have hbn : ((b.num : ℚ)) ≠ 0 := by
      exact_mod_cast hb
    push_cast
    field_simp

/-- `spec_ceil` agrees with Mathlib's ceiling on `ℚ`. -/
theorem spec_ceil_eq (q : ℚ) : spec_ceil q = ⌈q⌉ := by
  rw [spec_ceil, Int.fdiv_eq_ediv _ (by positivity), ← Rat.floor_def,
    Int.floor_neg, neg_neg]

/-- On nonnegative rationals, Python `int()` truncation is the floor. -/
theorem truncInt_eq_floor (q : ℚ) (h : 0 ≤ q) : truncInt q = ⌊q⌋ := by
  rw [truncInt, Int.tdiv_eq_ediv (Rat.num_nonneg.mpr h) (by positivity),
    ← Rat.floor_def]

theorem getLastD_cons_eq (a d : ℕ) (l : List ℕ) :
    (a :: l).getLastD d = l.getLastD a := by
  cases l <;> simp [List.getLastD]

/-- Appending a strictly smaller element to a strictly decreasing chain
keeps it strictly decreasing. -/
theorem chain_gt_snoc (d a : ℕ) (l : List ℕ)
    (hc : List.Chain' (fun x y => y < x) (d :: l)) (ha : a < l.getLastD d) :
    List.Chain' (fun x y => y < x) (d :: (l ++ [a])) := by
  induction l generalizing d with
  | nil =>
    simp only [List.getLastD] at ha
    simp [List.chain'_cons, List.chain'_singleton, ha]
  | cons x xs ih =>
    rw [List.chain'_cons] at hc
    rw [getLastD_cons_eq] at ha
    simpa [List.chain'_cons] using And.intro hc.1 (ih x hc.2 ha)

theorem recordBest_attempts (cfg : Config) (s : LoopState) :
    (recordBest cfg s).1.attempts = s.attempts ∧
    (recordBest cfg s).1.log = s.log ∧ (recordBest cfg s).1.temp = s.temp := by
  rw [recordBest]
  split <;> simp

/-- The bookkeeping step preserves the search invariant (on any state with
the counters already accounted for). -/
theorem recordBest_inv (cfg : Config) (orig : ℕ) (s : LoopState)
    (h : SearchInv cfg orig s) : SearchInv cfg orig (recordBest cfg s).1 := by
  rw [recordBest]
  split
  · rename_i himp
    refine ⟨?_, ?_, ?_, ?_, h.attemptsLe, h.attemptsLog⟩
    · exact chain_gt_snoc _ _ _ h.chain (h.bestEq ▸ himp)
    · simp [List.getLastD_concat]
    · intro bs hbs
      simp only [Option.some.injEq] at hbs
      simp [← hbs, List.getLastD_concat]
    · intro hbn
      simp at hbn
  · exact h

/-- A completed attempt is the bookkeeping step applied to the state with
the attempt counted, the invocation logged, and the temp file rewritten
when the encoder succeeded. -/
theorem attemptStep_ok (cfg : Config) (enc : Settings → Option (List ℕ))
    (st : Settings) (s s1 : LoopState) (brk : Bool)
    (he : attemptStep cfg enc st s = .ok (s1, brk)) :
    (∃ bytes, enc st = some bytes ∧
      (s1, brk) = recordBest cfg
        { s with attempts := s.attempts + 1, log := s.log ++ [st],
                 temp := bytes }) ∨
    (enc st = none ∧ cfg.use_gifsicle = true ∧
      (s1, brk) = recordBest cfg
        { s with attempts := s.attempts + 1, log := s.log ++ [st] }) := by
  rcases henc : enc st with _ | bytes
  · rcases hg : cfg.use_gifsicle
    · simp [attemptStep, henc, hg] at he
    · refine Or.inr ⟨rfl, rfl, ?_⟩
      simp only [attemptStep, henc, hg, if_pos, Except.ok.injEq] at he
      exact he.symm
  · refine Or.inl ⟨bytes, rfl, ?_⟩
    simp only [attemptStep, henc, Except.ok.injEq] at he
    exact he.symm

/-- An aborting attempt comes from the Pillow adapter, on an encode call
that failed; the carried state has that call logged last. -/
theorem attemptStep_error (cfg : Config) (enc : Settings → Option (List ℕ))
    (st : Settings) (s s1 : LoopState)
    (he : attemptStep cfg enc st s = .error s1) :
    cfg.use_gifsicle = false ∧ enc st = none ∧
      s1 = { s with attempts := s.attempts + 1, log := s.log ++ [st] } := by
  rcases henc : enc st with _ | bytes
  · rcases hg : cfg.use_gifsicle
    · refine ⟨rfl, rfl, ?_⟩
      simp only [attemptStep, henc, hg, Bool.false_eq_true, if_false,
        Except.error.injEq] at he
      exact he.symm
    · simp [attemptStep, henc, hg] at he
  · simp [attemptStep, henc] at he

/-- An attempt that completes (either adapter succeeding, or gifsicle
failing without aborting) preserves the search invariant, provided the
budget check passed. -/
theorem attemptStep_inv (cfg : Config) (enc : Settings → Option (List ℕ))
    (st : Settings) (s : LoopState) (s1 : LoopState) (brk : Bool)
    (orig : ℕ) (hlt : s.attempts < cfg.max_attempts)
    (h : SearchInv cfg orig s)
    (he : attemptStep cfg enc st s = .ok (s1, brk)) :
    SearchInv cfg orig s1 := by
  have hbase :
      SearchInv cfg orig
        { s with attempts := s.attempts + 1, log := s.log ++ [st] } :=
    ⟨h.chain, h.bestEq, h.bestCorr, h.bestNone, hlt,
      by simp [h.attemptsLog]⟩
  rcases attemptStep_ok cfg enc st s s1 brk he with
    ⟨bytes, _, hrec⟩ | ⟨_, _, hrec⟩
  · have hbase2 :
        SearchInv cfg orig
          { s with attempts := s.attempts + 1, log := s.log ++ [st],
                   temp := bytes } :=
      ⟨hbase.chain, hbase.bestEq, hbase.bestCorr, hbase.bestNone,
        hbase.attemptsLe, hbase.attemptsLog⟩
    have := recordBest_inv cfg orig _ hbase2
    rw [← hrec] at this
    exact this
  · have := recordBest_inv cfg orig _ hbase
    rw [← hrec] at this
    exact this

/-- An attempt that aborts (Pillow raising) does so with the invariant
still holding of the carried state. -/
theorem attemptStep_inv_error (cfg : Config)
    (enc : Settings → Option (List ℕ)) (st : Settings) (s s1 : LoopState)
    (orig : ℕ) (hlt : s.attempts < cfg.max_attempts)
    (h : SearchInv cfg orig s)
    (he : attemptStep cfg enc st s = .error s1) : SearchInv cfg orig s1 := by
  obtain ⟨-, -, hs1⟩ := attemptStep_error cfg enc st s s1 he
  subst hs1
  exact ⟨h.chain, h.bestEq, h.bestCorr, h.bestNone, hlt,
    by simp [h.attemptsLog]⟩

/-- A completed attempt logs exactly its codec invocation and counts it. -/
theorem attemptStep_log (cfg : Config) (enc : Settings → Option (List ℕ))
    (st : Settings) (s s1 : LoopState) (brk : Bool)
    (he : attemptStep cfg enc st s = .ok (s1, brk)) :
    s1.log = s.log ++ [st] ∧ s1.attempts = s.attempts + 1 := by
  rcases attemptStep_ok cfg enc st s s1 brk he with
    ⟨bytes, _, hrec⟩ | ⟨_, _, hrec⟩
  · have h1 := recordBest_attempts cfg
      { s with attempts := s.attempts + 1, log := s.log ++ [st],
               temp := bytes }
    rw [← hrec] at h1
    exact ⟨h1.2.1, h1.1⟩
  · have h1 := recordBest_attempts cfg
      { s with attempts := s.attempts + 1, log := s.log ++ [st] }
    rw [← hrec] at h1
    exact ⟨h1.2.1, h1.1⟩

/-- Generic preservation through the colors loop: every property that
survives a guarded attempt (completed or aborting, at the fixed scale and
lossy value of this loop) survives the loop. -/
theorem colorsLoop_pres (cfg : Config) (enc : Settings → Option (List ℕ))
    (sc lz : ℕ) (P : LoopState → Prop)
    (hok : ∀ c s s1 brk, s.attempts < cfg.max_attempts → P s →
      attemptStep cfg enc ⟨lz, c, sc⟩ s = .ok (s1, brk) → P s1)
    (herr : ∀ c s s1, s.attempts < cfg.max_attempts → P s →
      attemptStep cfg enc ⟨lz, c, sc⟩ s = .error s1 → P s1) :
    ∀ cs s, P s → P (outState (colorsLoop cfg enc sc lz cs s)) := by
  intro cs
  induction cs with
  | nil => intro s hP; simpa [colorsLoop, outState] using hP
  | cons c cs ih =>
    intro s hP
    rw [colorsLoop]
    by_cases hb : cfg.max_attempts ≤ s.attempts
    · simpa [outState, if_pos hb] using hP
    · rw [if_neg hb]
      have hlt : s.attempts < cfg.max_attempts := Nat.lt_of_not_le hb
      rcases hstep : attemptStep cfg enc ⟨lz, c, sc⟩ s with s1 | ⟨s1, brk⟩
      · simpa [outState] using herr c s s1 hlt hP hstep
      · rcases brk with _ | _
        · exact ih s1 (hok c s s1 false hlt hP hstep)
        · simpa [outState] using hok c s s1 true hlt hP hstep

/-- Generic preservation through the lossy loop at a fixed scale. -/
theorem lossyLoop_pres (cfg : Config) (enc : Settings → Option (List ℕ))
    (sc : ℕ) (P : LoopState → Prop)
    (hok : ∀ lz c s s1 brk, s.attempts < cfg.max_attempts → P s →
      attemptStep cfg enc ⟨lz, c, sc⟩ s = .ok (s1, brk) → P s1)
    (herr : ∀ lz c s s1, s.attempts < cfg.max_attempts → P s →
      attemptStep cfg enc ⟨lz, c, sc⟩ s = .error s1 → P s1) :
    ∀ lzs s, P s → P (outState (lossyLoop cfg enc sc lzs s)) := by
  intro lzs
  induction lzs with
  | nil => intro s hP; simpa [lossyLoop, outState] using hP
  | cons lz lzs ih =>
    intro s hP
    rw [lossyLoop]
    have hcol := colorsLoop_pres cfg enc sc lz P (hok lz) (herr lz)
      (color_values cfg.min_colors) s hP
    rcases hc : colorsLoop cfg enc sc lz (color_values cfg.min_colors) s
      with s1 | s1
    · rw [hc] at hcol
      simpa [outState] using hcol
    · rw [hc] at hcol
      exact ih s1 hcol

/-- Generic preservation through a scales loop: a property surviving every
guarded attempt whose scale is drawn from the scale list (and lossy from
the lossy list) survives the whole pass. -/
theorem scalesLoop_pres (cfg : Config) (enc : Settings → Option (List ℕ))
    (lzs : List ℕ) (P : LoopState → Prop) :
    ∀ scs : List ℕ,
    (∀ sc lz c s s1 brk, sc ∈ scs → s.attempts < cfg.max_attempts → P s →
      attemptStep cfg enc ⟨lz, c, sc⟩ s = .ok (s1, brk) → P s1) →
    (∀ sc lz c s s1, sc ∈ scs → s.attempts < cfg.max_attempts → P s →
      attemptStep cfg enc ⟨lz, c, sc⟩ s = .error s1 → P s1) →
    ∀ s, P s → P (outState (scalesLoop cfg enc lzs scs s)) := by
  intro scs
  induction scs with
  | nil => intro _ _ s hP; simpa [scalesLoop, outState] using hP
  | cons sc scs ih =>
    intro hok herr s hP
    rw [scalesLoop]
    have hsc : sc ∈ sc :: scs := List.mem_cons_self sc scs
    have hlos := lossyLoop_pres cfg enc sc P
      (fun lz c s s1 brk => hok sc lz c s s1 brk hsc)
      (fun lz c s s1 => herr sc lz c s s1 hsc) lzs s hP
    rcases hl : lossyLoop cfg enc sc lzs s with s1 | s1
    · rw [hl] at hlos
      simpa [outState] using hlos
    · rw [hl] at hlos
      exact ih
        (fun sc2 lz c s2 s3 brk hm => hok sc2 lz c s2 s3 brk
          (List.mem_cons_of_mem sc hm))
        (fun sc2 lz c s2 s3 hm => herr sc2 lz c s2 s3
          (List.mem_cons_of_mem sc hm)) s1 hlos

/-- Every abort of the colors loop is a Pillow-adapter abort on a failed
encode call, and that call is logged in the carried state. -/
theorem colorsLoop_error (cfg : Config) (enc : Settings → Option (List ℕ))
    (sc lz : ℕ) : ∀ cs s s1,
    colorsLoop cfg enc sc lz cs s = .error s1 →
    cfg.use_gifsicle = false ∧ ∃ st ∈ s1.log, enc st = none := by
  intro cs
  induction cs with
  | nil => intro s s1 h; simp [colorsLoop] at h
  | cons c cs ih =>
    intro s s1 h
    rw [colorsLoop] at h
    by_cases hb : cfg.max_attempts ≤ s.attempts
    · simp [if_pos hb] at h
    · rw [if_neg hb] at h
      rcases hstep : attemptStep cfg enc ⟨lz, c, sc⟩ s with s2 | ⟨s2, brk⟩
      · rw [hstep] at h
        simp only [Except.error.injEq] at h
        obtain ⟨hg, henc, hs⟩ := attemptStep_error cfg enc _ s s2 hstep
        subst h
        refine ⟨hg, ⟨lz, c, sc⟩, ?_, henc⟩
        rw [hs]
        simp
      · rw [hstep] at h
        rcases brk with _ | _
        · exact ih s2 s1 h
        · simp at h

/-- Every abort of the lossy loop is a Pillow-adapter abort on a failed,
logged encode call. -/
theorem lossyLoop_error (cfg : Config) (enc : Settings → Option (List ℕ))
    (sc : ℕ) : ∀ lzs s s1,
    lossyLoop cfg enc sc lzs s = .error s1 →
    cfg.use_gifsicle = false ∧ ∃ st ∈ s1.log, enc st = none := by
  intro lzs
  induction lzs with
  | nil => intro s s1 h; simp [lossyLoop] at h
  | cons lz lzs ih =>
    intro s s1 h
    rw [lossyLoop] at h
    rcases hc : colorsLoop cfg enc sc lz (color_values cfg.min_colors) s
      with s2 | s2 <;> rw [hc] at h
    · simp only [Except.error.injEq] at h
      exact h ▸ colorsLoop_error cfg enc sc lz _ s s2 hc
    · exact ih s2 s1 h

/-- Every abort of a scales loop is a Pillow-adapter abort on a failed,
logged encode call. -/
theorem scalesLoop_error (cfg : Config) (enc : Settings → Option (List ℕ))
    (lzs : List ℕ) : ∀ scs s s1,
    scalesLoop cfg enc lzs scs s = .error s1 →
    cfg.use_gifsicle = false ∧ ∃ st ∈ s1.log, enc st = none := by
  intro scs
  induction scs with
  | nil => intro s s1 h; simp [scalesLoop] at h
  | cons sc scs ih =>
    intro s s1 h
    rw [scalesLoop] at h
    rcases hl : lossyLoop cfg enc sc lzs s with s2 | s2 <;> rw [hl] at h
    · simp only [Except.error.injEq] at h
      exact h ▸ lossyLoop_error cfg enc sc lzs s s2 hl
    · exact ih s2 s1 h

theorem initState_inv (cfg : Config) (orig : ℕ) :
    SearchInv cfg orig (initState orig) :=
  ⟨by simp [initState], by simp [initState], by simp [initState],
    by simp [initState], Nat.zero_le _, by simp [initState]⟩

theorem compress_eq_err1 (input : List ℕ) (cfg : Config)
    (enc : Settings → Option (List ℕ)) (s : LoopState)
    (h0 : ¬ input.length ≤ cfg.target)
    (h1 : pass1run input cfg enc = .error s) :
    compress_gif input cfg enc = .error s := by
  rw [compress_gif]
  simp only [if_neg h0, h1]

theorem compress_eq_err2 (input : List ℕ) (cfg : Config)
    (enc : Settings → Option (List ℕ)) (s s2 : LoopState)
    (h0 : ¬ input.length ≤ cfg.target)
    (h1 : pass1run input cfg enc = .ok s)
    (h2 : pass2run cfg enc s = .error s2) :
    compress_gif input cfg enc = .error s2 := by
  rw [compress_gif]
  simp only [if_neg h0, h1, h2]

theorem compress_eq_ok (input : List ℕ) (cfg : Config)
    (enc : Settings → Option (List ℕ)) (s s2 : LoopState)
    (h0 : ¬ input.length ≤ cfg.target)
    (h1 : pass1run input cfg enc = .ok s)
    (h2 : pass2run cfg enc s = .ok s2) :
    compress_gif input cfg enc = finishRun input.length s2 := by
  rw [compress_gif]
  simp only [if_neg h0, h1, h2]

/-- The state pass 2 ends in (whether it ran, was skipped, or aborted)
satisfies the search invariant if its entry state does. -/
theorem pass2run_inv (cfg : Config) (enc : Settings → Option (List ℕ))
    (orig : ℕ) (s : LoopState) (h : SearchInv cfg orig s) :
    SearchInv cfg orig (outState (pass2run cfg enc s)) := by
  rw [pass2run]
  rcases hcond : pass2cond cfg s
  · simpa [outState] using h
  · simp only [if_pos]
    exact scalesLoop_pres cfg enc [60, 120, 200] (SearchInv cfg orig)
      (scale_values cfg.min_scale10).tail
      (fun sc lz c s2 s3 brk _ hlt hP hstep =>
        attemptStep_inv cfg enc _ s2 s3 brk _ hlt hP hstep)
      (fun sc lz c s2 s3 _ hlt hP hstep =>
        attemptStep_inv_error cfg enc _ s2 s3 _ hlt hP hstep)
      s h

/-- Pass 1 ends (normally or not) in a state satisfying the invariant. -/
theorem pass1run_inv (input : List ℕ) (cfg : Config)
    (enc : Settings → Option (List ℕ)) :
    SearchInv cfg input.length (outState (pass1run input cfg enc)) := by
  rw [pass1run]
  exact scalesLoop_pres cfg enc lossy_values (SearchInv cfg input.length)
    (first_pass_scales cfg)
    (fun sc lz c s s1 brk _ hlt hP hstep =>
      attemptStep_inv cfg enc _ s s1 brk _ hlt hP hstep)
    (fun sc lz c s s1 _ hlt hP hstep =>
      attemptStep_inv_error cfg enc _ s s1 _ hlt hP hstep)
    (initState input.length) (initState_inv cfg input.length)

/-- The search invariant holds of the state every run ends in, whether it
returned normally or aborted. -/
theorem compress_inv (input : List ℕ) (cfg : Config)
    (enc : Settings → Option (List ℕ)) :
    SearchInv cfg input.length (traceOf (compress_gif input cfg enc)) := by
  by_cases h0 : input.length ≤ cfg.target
  · rw [compress_gif]
    rw [if_pos h0]
    exact initState_inv cfg input.length
  · have hp1 := pass1run_inv input cfg enc
    rcases h1 : pass1run input cfg enc with s | s <;> rw [h1] at hp1 <;>
      simp only [outState] at hp1
    · rw [compress_eq_err1 input cfg enc s h0 h1]
      exact hp1
    · have hp2 := pass2run_inv cfg enc input.length s hp1
      rcases h2 : pass2run cfg enc s with s2 | s2 <;> rw [h2] at hp2 <;>
        simp only [outState] at hp2
      · rw [compress_eq_err2 input cfg enc s s2 h0 h1 h2]
        exact hp2
      · rw [compress_eq_ok input cfg enc s s2 h0 h1 h2, finishRun]
        rcases hbest : s2.best with _ | bs <;> simpa [traceOf] using hp2

/-- Every abort of pass 2 is a Pillow-adapter abort on a failed, logged
encode call. -/
theorem pass2run_error (cfg : Config) (enc : Settings → Option (List ℕ))
    (s s2 : LoopState) (h : pass2run cfg enc s = .error s2) :
    cfg.use_gifsicle = false ∧ ∃ st ∈ s2.log, enc st = none := by
  rw [pass2run] at h
  rcases hcond : pass2cond cfg s <;> rw [hcond] at h
  · simp at h
  · simp only [if_pos] at h
    exact scalesLoop_error cfg enc [60, 120, 200] _ s s2 h

/-- Every abort of `compress_gif` is a Pillow-adapter abort on a failed
encode call logged in the carried state (in particular, neither budget
exhaustion nor target satisfaction ever raises). -/
theorem compress_error (input : List ℕ) (cfg : Config)
    (enc : Settings → Option (List ℕ)) (s : LoopState)
    (h : compress_gif input cfg enc = .error s) :
    cfg.use_gifsicle = false ∧ ∃ st ∈ s.log, enc st = none := by
  by_cases h0 : input.length ≤ cfg.target
  · rw [compress_gif, if_pos h0] at h
    cases h
  · rcases h1 : pass1run input cfg enc with s1 | s1
    · rw [compress_eq_err1 input cfg enc s1 h0 h1] at h
      simp only [Except.error.injEq] at h
      rw [pass1run] at h1
      exact h ▸ scalesLoop_error cfg enc lossy_values _ _ s1 h1
    · rcases h2 : pass2run cfg enc s1 with s2 | s2
      · rw [compress_eq_err2 input cfg enc s1 s2 h0 h1 h2] at h
        simp only [Except.error.injEq] at h
        exact h ▸ pass2run_error cfg enc s1 s2 h2
      · rw [compress_eq_ok input cfg enc s1 s2 h0 h1 h2, finishRun] at h
        rcases hbest : s2.best with _ | bs <;> rw [hbest] at h <;> cases h

/-- With the gifsicle adapter the run never raises, whatever the encoder
does. -/
theorem compress_ok_of_gifsicle (input : List ℕ) (cfg : Config)
    (enc : Settings → Option (List ℕ)) (hg : cfg.use_gifsicle = true) :
    ∃ r, compress_gif input cfg enc = .ok r := by
  rcases h : compress_gif input cfg enc with s | r
  · obtain ⟨hgf, -⟩ := compress_error input cfg enc s h
    rw [hg] at hgf
    cases hgf
  · exact ⟨r, rfl⟩

/-- A scales loop only appends to the invocation log, and every appended
invocation draws its scale from the loop's scale list. -/
theorem scalesLoop_log (cfg : Config) (enc : Settings → Option (List ℕ))
    (lzs scs : List ℕ) (s0 : LoopState) :
    ∃ Δ, (outState (scalesLoop cfg enc lzs scs s0)).log = s0.log ++ Δ ∧
      ∀ st ∈ Δ, st.scale10 ∈ scs := by
  refine scalesLoop_pres cfg enc lzs
    (fun s => ∃ Δ, s.log = s0.log ++ Δ ∧ ∀ st ∈ Δ, st.scale10 ∈ scs) scs
    ?_ ?_ s0 ⟨[], by simp, by simp⟩
  · rintro sc lz c s s1 brk hsc hlt ⟨Δ, hΔ, hmem⟩ hstep
    obtain ⟨hlog, -⟩ := attemptStep_log cfg enc _ s s1 brk hstep
    refine ⟨Δ ++ [⟨lz, c, sc⟩], ?_, ?_⟩
    · rw [hlog, hΔ, List.append_assoc]
    · intro st hst
      rcases List.mem_append.mp hst with hin | hlast
      · exact hmem st hin
      · rw [List.mem_singleton.mp hlast]
        exact hsc
  · rintro sc lz c s s1 hsc hlt ⟨Δ, hΔ, hmem⟩ hstep
    obtain ⟨-, -, hs1⟩ := attemptStep_error cfg enc _ s s1 hstep
    refine ⟨Δ ++ [⟨lz, c, sc⟩], ?_, ?_⟩
    · rw [hs1]
      simp only [hΔ, List.append_assoc]
    · intro st hst
      rcases List.mem_append.mp hst with hin | hlast
      · exact hmem st hin
      · rw [List.mem_singleton.mp hlast]
        exact hsc

/-- Pass 2 only appends to the invocation log. -/
theorem pass2run_log (cfg : Config) (enc : Settings → Option (List ℕ))
    (s : LoopState) :
    ∃ Δ, (outState (pass2run cfg enc s)).log = s.log ++ Δ := by
  rw [pass2run]
  rcases hcond : pass2cond cfg s
  · exact ⟨[], by simp [outState]⟩
  · simp only [if_pos]
    obtain ⟨Δ, hΔ, -⟩ := scalesLoop_log cfg enc [60, 120, 200]
      (scale_values cfg.min_scale10).tail s
    exact ⟨Δ, hΔ⟩

theorem traceOf_finishRun (n : ℕ) (s2 : LoopState) :
    traceOf (finishRun n s2) = s2 := by
  rcases hbest : s2.best with _ | bs <;> simp [finishRun, hbest, traceOf]

/-- Once the target is met, the pass-2 guard is off. -/
theorem pass2cond_false_of_le (cfg : Config) (s : LoopState)
    (h : s.best_size ≤ cfg.target) : pass2cond cfg s = false := by
  rw [pass2cond, decide_eq_false (Nat.not_lt.mpr h)]
  simp

theorem pass2run_skip (cfg : Config) (enc : Settings → Option (List ℕ))
    (s : LoopState) (h : pass2cond cfg s = false) :
    pass2run cfg enc s = .ok s := by
  rw [pass2run, h]
  simp

/-- When scaling is not forced, pass 1 sweeps only scale 1.0. -/
theorem first_pass_scales_no_force (cfg : Config)
    (hf : cfg.force_scaling = false) : first_pass_scales cfg = [10] := by
  rw [first_pass_scales, hf]
  simp

theorem recordBest_temp_best (cfg : Config) (s : LoopState) :
    (recordBest cfg s).1.temp = s.temp ∧
      ((recordBest cfg s).1.best = s.best ∨
        (recordBest cfg s).1.best = some s.temp) := by
  rw [recordBest]
  split <;> simp

/-- When every encode attempt fails under the gifsicle adapter, the temp
file keeps its initial empty content forever, and the only artifact that
can ever be adopted as best is that empty content. -/
theorem scalesLoop_empty_temp (cfg : Config)
    (enc : Settings → Option (List ℕ))
    (henc : ∀ st, enc st = none) (lzs scs : List ℕ) (s0 : LoopState)
    (h0 : s0.temp = [] ∧ (s0.best = none ∨ s0.best = some [])) :
    (outState (scalesLoop cfg enc lzs scs s0)).temp = [] ∧
      ((outState (scalesLoop cfg enc lzs scs s0)).best = none ∨
        (outState (scalesLoop cfg enc lzs scs s0)).best = some []) := by
  refine scalesLoop_pres cfg enc lzs
    (fun s => s.temp = [] ∧ (s.best = none ∨ s.best = some [])) scs
    ?_ ?_ s0 h0
  · rintro sc lz c s s1 brk hsc hlt ⟨htemp, hbest⟩ hstep
    rcases attemptStep_ok cfg enc _ s s1 brk hstep with
      ⟨bytes, hsome, -⟩ | ⟨-, -, hrec⟩
    · rw [henc _] at hsome
      cases hsome
    · have hrb := recordBest_temp_best cfg
        { s with attempts := s.attempts + 1, log := s.log ++ [⟨lz, c, sc⟩] }
      rw [← hrec] at hrb
      refine ⟨by rw [hrb.1]; exact htemp, ?_⟩
      rcases hrb.2 with hsame | hnew
      · rw [hsame]
        exact hbest
      · rw [hnew]
        right
        rw [htemp]
  · rintro sc lz c s s1 hsc hlt ⟨htemp, hbest⟩ hstep
    obtain ⟨-, -, hs1⟩ := attemptStep_error cfg enc _ s s1 hstep
    rw [hs1]
    exact ⟨htemp, hbest⟩

/-- The frame-collection loop of `_adjust_frames`, for decimating rates,
retains exactly the frames whose index satisfies
`i % int(1/sample_rate) == 0`, in order. -/
theorem adjustLoop_filter (sr df : ℚ) (h1 : sr < 1) :
    ∀ (fs : List Frame) (i : ℕ),
    adjustLoop sr df i fs =
      ((fs.enumFrom i).filter
        (fun p => p.1 % (truncInt (ratDiv 1 sr)).toNat = 0)).map
        (fun p => adjustFrame df p.2) := by
  intro fs
  induction fs with
  | nil => intro i; simp [adjustLoop]
  | cons f fs ih =>
    intro i
    rw [adjustLoop]
    by_cases hmod : i % (truncInt (ratDiv 1 sr)).toNat = 0
    · rw [if_neg (by simp [hmod])]
      simp [List.enumFrom, List.filter_cons, hmod, ih (i + 1)]
    · rw [if_pos ⟨h1, hmod⟩]
      simp [List.enumFrom, List.filter_cons, hmod, ih (i + 1)]

/-- For a decimating rate the collected frame list keeps index 0, so it is
nonempty whenever the input has frames, and `_adjust_frames` then returns
exactly the collected list. -/
theorem _adjust_frames_eq (g : GIF) (sr df : ℚ) (h1 : sr < 1) :
    (_adjust_frames g sr df).frames =
      ((g.frames.enumFrom 0).filter
        (fun p => p.1 % (truncInt (ratDiv 1 sr)).toNat = 0)).map
        (fun p => adjustFrame df p.2) := by
  rcases hfr : g.frames with _ | ⟨f, fs⟩
  · simp [_adjust_frames, hfr, adjustLoop]
  · have hloop := adjustLoop_filter sr df h1 (f :: fs) 0
    have hne : adjustLoop sr df 0 (f :: fs) ≠ [] := by
      rw [adjustLoop, if_neg (by simp)]
      exact List.cons_ne_nil _ _
    rw [_adjust_frames, hfr]
    rw [if_neg (by simp [List.isEmpty_eq_true, hne])]
    exact hloop

/-- Frame index 0 always satisfies the sampling condition, so at least one
frame survives `_adjust_frames` whenever the input has frames. -/
theorem _adjust_frames_ne_nil (g : GIF) (sr df : ℚ)
    (hne : g.frames ≠ []) : (_adjust_frames g sr df).frames ≠ [] := by
  rcases hfr : g.frames with _ | ⟨f, fs⟩
  · exact absurd hfr hne
  · have hcons : adjustLoop sr df 0 (f :: fs) ≠ [] := by
      rw [adjustLoop, if_neg (by simp)]
      exact List.cons_ne_nil _ _
    rw [_adjust_frames, hfr]
    rw [if_neg (by simp [List.isEmpty_eq_true, hcons])]
    exact hcons

/-- For sampling rates strictly between one half and one, the stride
`int(1/sample_rate)` computed by `_adjust_frames` is 1. -/
theorem stride_eq_one (sr : ℚ) (h0 : 1 / 2 < sr) (h1 : sr < 1) :
    (truncInt (ratDiv 1 sr)).toNat = 1 := by
  have hsr0 : (0 : ℚ) < sr := lt_trans (by norm_num) h0
  have hq1 : (1 : ℚ) < 1 / sr := by
    rw [lt_div_iff₀ hsr0]
    linarith
  have hq2 : (1 : ℚ) / sr < 2 := by
    rw [div_lt_iff₀ hsr0]
    linarith
  rw [ratDiv_eq_div,
    truncInt_eq_floor _ (div_nonneg zero_le_one hsr0.le)]
  have hfl : ⌊(1 : ℚ) / sr⌋ = 1 := by
    rw [Int.floor_eq_iff]
    constructor
    · exact_mod_cast hq1.le
    · push_cast
      linarith
  rw [hfl]
  rfl

/-- C1: the specification claims that once the tracker's best size reaches
the target, no further codec invocation occurs in that run. The code's
`break` after `if best_size <= target_size_bytes` exits only the innermost
colors loop, so the run below — whose very first attempt produces a 3-byte
artifact, at or under the 5-byte target, as the budget-1 run shows —
nevertheless performs 7 encode attempts when given budget 10: six codec
invocations happen after the target is met. -/
theorem C1_stops_after_target_met_exhibit :
    (traceOf (compress_gif inC (cfgC 1 true) encOk)).attempts = 1 ∧
    (traceOf (compress_gif inC (cfgC 1 true) encOk)).best_size ≤
      (cfgC 1 true).target ∧
    (traceOf (compress_gif inC (cfgC 10 true) encOk)).attempts = 7 ∧
    (traceOf (compress_gif inC (cfgC 10 true) encOk)).accepted = [3] := by
  decide

/-- C2 (counterexample): with the Pillow fallback a failed first encode
attempt propagates as an exception and aborts the whole search (the run
ends in `Except.error` with a single logged invocation); and with
gifsicle a failed attempt is not treated as "no improvement": the
still-empty temp file is measured at 0 bytes and adopted as the best
candidate. -/
theorem C2_counterexample :
    runErr (compress_gif inC (cfgC 10 false) encNone) =
      some ⟨1, 12, none, [], [], [⟨0, 256, 10⟩]⟩ ∧
    (traceOf (compress_gif inC (cfgC 10 true) encNone)).accepted = [0] ∧
    (traceOf (compress_gif inC (cfgC 10 true) encNone)).best = some [] := by
  decide

/-- C2 (amended): under the gifsicle adapter a failed encode attempt
(non-zero exit) never aborts the run — `compress_gif` always returns
normally, whatever the oracle does — and every attempt, failed or not, is
counted against the budget (the attempt counter always equals the number
of logged codec invocations). A Pillow-fallback failure, by contrast,
aborts the search, and a failed gifsicle attempt's temp-file content is
still measured and may be adopted as a candidate. -/
theorem C2_gifsicle_failure_recovery (input : List ℕ) (cfg : Config)
    (enc : Settings → Option (List ℕ)) (hg : cfg.use_gifsicle = true) :
    (∃ r, compress_gif input cfg enc = .ok r) ∧
    (traceOf (compress_gif input cfg enc)).attempts =
      (traceOf (compress_gif input cfg enc)).log.length :=
  ⟨compress_ok_of_gifsicle input cfg enc hg,
    (compress_inv input cfg enc).attemptsLog⟩

theorem C2_gifsicle_failure_recovery_witness :
    (cfgC 10 true).use_gifsicle = true ∧
    ((∃ r, compress_gif inC (cfgC 10 true) encNone = .ok r) ∧
      (traceOf (compress_gif inC (cfgC 10 true) encNone)).attempts =
        (traceOf (compress_gif inC (cfgC 10 true) encNone)).log.length) :=
  ⟨rfl, C2_gifsicle_failure_recovery inC (cfgC 10 true) encNone rfl⟩

/-- C3 (counterexample): at `sample_rate = 3/10` on a 4-frame input the
code keeps 2 frames (stride `int(1/0.3) = 3`, indices 0 and 3), while the
claimed ceiling stride `⌈1/0.3⌉ = 4` would keep exactly 1 (index 0 only):
the retained set is not the claimed one. -/
theorem C3_counterexample :
    (_adjust_frames g3 (mkRat 3 10) 1).frames.length = 2 ∧
    ((List.range g3.frames.length).filter
      (fun i => i % (spec_ceil (ratDiv 1 (mkRat 3 10))).toNat = 0)).length
      = 1 ∧
    (_adjust_frames g3 (mkRat 3 10) 1).frames.length ≠
      ((List.range g3.frames.length).filter
        (fun i => i % (spec_ceil (ratDiv 1 (mkRat 3 10))).toNat = 0)).length
      := by
  decide

/-- C3 (amended): for every `sample_rate ∈ (0,1)` the frame-adjustment
step retains exactly the frames at indices `i` with
`i mod int(1/sample_rate) == 0` — the stride is the TRUNCATION (floor) of
`1/sample_rate`, not its ceiling — the stride is at least 1, and frame
index 0 always survives, so at least one frame remains. -/
theorem C3_sampling_stride (g : GIF) (sr df : ℚ) (h0 : 0 < sr)
    (h1 : sr < 1) :
    1 ≤ (truncInt (ratDiv 1 sr)).toNat ∧
    (_adjust_frames g sr df).frames =
      ((g.frames.enumFrom 0).filter
        (fun p => p.1 % (truncInt (ratDiv 1 sr)).toNat = 0)).map
        (fun p => adjustFrame df p.2) ∧
    (g.frames ≠ [] → (_adjust_frames g sr df).frames ≠ []) := by
  refine ⟨?_, _adjust_frames_eq g sr df h1,
    fun hne => _adjust_frames_ne_nil g sr df hne⟩
  have hnn : (0 : ℚ) ≤ ratDiv 1 sr := by
    rw [ratDiv_eq_div]
    exact div_nonneg zero_le_one h0.le
  have hfl : (1 : ℤ) ≤ ⌊ratDiv 1 sr⌋ := by
    rw [ratDiv_eq_div, Int.le_floor]
    push_cast
    rw [le_div_iff₀ h0]
    linarith
  rw [truncInt_eq_floor _ hnn]
  omega

theorem C3_sampling_stride_witness :
    (0 : ℚ) < mkRat 3 10 ∧ (mkRat 3 10 : ℚ) < 1 ∧
    (1 ≤ (truncInt (ratDiv 1 (mkRat 3 10))).toNat ∧
      (_adjust_frames g3 (mkRat 3 10) 1).frames =
        ((g3.frames.enumFrom 0).filter
          (fun p => p.1 % (truncInt (ratDiv 1 (mkRat 3 10))).toNat = 0)).map
          (fun p => adjustFrame (1 : ℚ) p.2) ∧
      (g3.frames ≠ [] → (_adjust_frames g3 (mkRat 3 10) 1).frames ≠ [])) :=
  ⟨by decide, by decide,
    C3_sampling_stride g3 (mkRat 3 10) 1 (by decide) (by decide)⟩

/-- C4 (counterexample): a run in which every encode attempt fails (the
oracle never produces an artifact) is not surfaced as a failure: it
returns normally, writes an output file — the 0-byte temp content adopted
as "best" — and reports sizes `(12, 0)`. -/
theorem C4_counterexample :
    runOutput (compress_gif inC (cfgC 10 true) encNone) = some [] ∧
    runRet (compress_gif inC (cfgC 10 true) encNone) = some (12, 0) := by
  decide

/-- C4 (amended): when every encode attempt fails under the gifsicle
adapter on an over-target input, the run still returns normally and an
output file IS written: the temp file never acquires content, so the
bytes copied to the output path are empty and the returned pair is
`(original_size, 0)`; no run failure is surfaced to the caller. -/
theorem C4_total_failure_writes_output (input : List ℕ) (cfg : Config)
    (enc : Settings → Option (List ℕ)) (hg : cfg.use_gifsicle = true)
    (ht : cfg.target < input.length) (henc : ∀ st, enc st = none) :
    runOutput (compress_gif input cfg enc) = some [] ∧
    runRet (compress_gif input cfg enc) = some (input.length, 0) := by
  have h0 : ¬ input.length ≤ cfg.target := Nat.not_le.mpr ht
  rcases h1 : pass1run input cfg enc with s1 | s1
  · exfalso
    rw [pass1run] at h1
    obtain ⟨hgf, -⟩ := scalesLoop_error cfg enc lossy_values _ _ s1 h1
    rw [hg] at hgf
    cases hgf
  · have hP1 : s1.temp = [] ∧ (s1.best = none ∨ s1.best = some []) := by
      have hloop := scalesLoop_empty_temp cfg enc henc lossy_values
        (first_pass_scales cfg) (initState input.length) ⟨rfl, Or.inl rfl⟩
      rw [pass1run] at h1
      rw [h1] at hloop
      simpa [outState] using hloop
    rcases h2 : pass2run cfg enc s1 with s2 | s2
    · exfalso
      obtain ⟨hgf, -⟩ := pass2run_error cfg enc s1 s2 h2
      rw [hg] at hgf
      cases hgf
    · have hP2 : s2.temp = [] ∧ (s2.best = none ∨ s2.best = some []) := by
        rw [pass2run] at h2
        rcases hcond : pass2cond cfg s1 <;> rw [hcond] at h2
        · simp only [Bool.false_eq_true, if_false, Except.ok.injEq] at h2
          rw [← h2]
          exact hP1
        · simp only [if_pos] at h2
          have hloop := scalesLoop_empty_temp cfg enc henc [60, 120, 200]
            (scale_values cfg.min_scale10).tail s1 hP1
          rw [h2] at hloop
          simpa [outState] using hloop
      rw [compress_eq_ok input cfg enc s1 s2 h0 h1 h2, finishRun]
      rcases hP2.2 with hbn | hbe
      · rw [hbn]
        simp [runOutput, runRet, hP2.1]
      · rw [hbe]
        simp [runOutput, runRet]

theorem C4_total_failure_writes_output_witness :
    (cfgC 10 true).use_gifsicle = true ∧
    (cfgC 10 true).target < inC.length ∧
    (runOutput (compress_gif inC (cfgC 10 true) encNone) = some [] ∧
      runRet (compress_gif inC (cfgC 10 true) encNone) =
        some (inC.length, 0)) :=
  ⟨rfl, by decide,
    C4_total_failure_writes_output inC (cfgC 10 true) encNone rfl
      (by decide) (fun _ => rfl)⟩

/-- C5: for every configuration and every encoder behaviour, the total
number of codec invocations across both passes is at most
`max_attempts`, and exhausting the budget never raises: the only way a
run ends in an exception is a failed encode call under the Pillow
fallback (logged in the carried state). -/
theorem C5_budget_respected (input : List ℕ) (cfg : Config)
    (enc : Settings → Option (List ℕ)) :
    (traceOf (compress_gif input cfg enc)).log.length ≤ cfg.max_attempts ∧
    (∀ s, compress_gif input cfg enc = .error s →
      cfg.use_gifsicle = false ∧ ∃ st ∈ s.log, enc st = none) := by
  constructor
  · have h := compress_inv input cfg enc
    rw [← h.attemptsLog]
    exact h.attemptsLe
  · intro s hs
    exact compress_error input cfg enc s hs

theorem C5_budget_respected_witness :
    (traceOf (compress_gif inC (cfgC 10 true) encOk)).log.length ≤
      (cfgC 10 true).max_attempts ∧
    (∀ s, compress_gif inC (cfgC 10 true) encOk = .error s →
      (cfgC 10 true).use_gifsicle = false ∧ ∃ st ∈ s.log, encOk st = none) :=
  C5_budget_respected inC (cfgC 10 true) encOk

/-- C6: across every run the sizes accepted by the tracker, read after
the original size, form a strictly decreasing sequence (so every accepted
candidate is a strict improvement and equal-size candidates are
discarded), and `best_size` is the last accepted size — monotonically
non-increasing from its initial value `original_size`. -/
theorem C6_strict_improvement (input : List ℕ) (cfg : Config)
    (enc : Settings → Option (List ℕ)) :
    List.Chain' (fun a b => b < a)
      (input.length :: (traceOf (compress_gif input cfg enc)).accepted) ∧
    (traceOf (compress_gif input cfg enc)).best_size =
      (traceOf (compress_gif input cfg enc)).accepted.getLastD
        input.length :=
  ⟨(compress_inv input cfg enc).chain, (compress_inv input cfg enc).bestEq⟩

theorem C6_strict_improvement_witness :
    List.Chain' (fun a b => b < a)
      (inC.length :: (traceOf (compress_gif inC (cfgC 10 true) encOk)).accepted) ∧
    (traceOf (compress_gif inC (cfgC 10 true) encOk)).best_size =
      (traceOf (compress_gif inC (cfgC 10 true) encOk)).accepted.getLastD
        inC.length :=
  C6_strict_improvement inC (cfgC 10 true) encOk

/-- C7: an input already at or under the target short-circuits: the input
bytes are copied verbatim to the output path, the returned pair is
`(original_size, original_size)`, and the final state is the initial one —
zero attempts, no codec invocation. -/
theorem C7_small_input_short_circuit (input : List ℕ) (cfg : Config)
    (enc : Settings → Option (List ℕ)) (h : input.length ≤ cfg.target) :
    compress_gif input cfg enc =
      .ok ⟨input, (input.length, input.length), initState input.length⟩ := by
  rw [compress_gif]
  rw [if_pos h]

theorem C7_small_input_short_circuit_witness :
    inSmall.length ≤ (cfgC 10 true).target ∧
    compress_gif inSmall (cfgC 10 true) encOk =
      .ok ⟨inSmall, (inSmall.length, inSmall.length),
        initState inSmall.length⟩ :=
  ⟨by decide, C7_small_input_short_circuit inSmall (cfgC 10 true) encOk
    (by decide)⟩

/-- C8: when scaling is not forced, every pass-1 codec invocation uses
scale 1.0; the pass-1 invocations form a prefix of the whole run's
invocation log (so any scaled attempt can only come after all of pass 1);
and if pass 1 ends with the target met, pass 2 is skipped and no scaled
attempt occurs in the entire run. -/
theorem C8_pass_ordering (input : List ℕ) (cfg : Config)
    (enc : Settings → Option (List ℕ)) (hf : cfg.force_scaling = false)
    (ht : cfg.target < input.length) :
    (∀ st ∈ (outState (pass1run input cfg enc)).log, st.scale10 = 10) ∧
    (∃ Δ, (traceOf (compress_gif input cfg enc)).log =
      (outState (pass1run input cfg enc)).log ++ Δ) ∧
    (∀ s1, pass1run input cfg enc = .ok s1 → s1.best_size ≤ cfg.target →
      ∀ st ∈ (traceOf (compress_gif input cfg enc)).log,
        st.scale10 = 10) := by
  have h0 : ¬ input.length ≤ cfg.target := Nat.not_le.mpr ht
  have hA : ∀ st ∈ (outState (pass1run input cfg enc)).log,
      st.scale10 = 10 := by
    rw [pass1run, first_pass_scales_no_force cfg hf]
    obtain ⟨Δ, hΔ, hmem⟩ := scalesLoop_log cfg enc lossy_values [10]
      (initState input.length)
    intro st hst
    rw [hΔ] at hst
    simp only [initState, List.nil_append] at hst
    exact List.mem_singleton.mp (hmem st hst)
  refine ⟨hA, ?_, ?_⟩
  · rcases h1 : pass1run input cfg enc with s1 | s1
    · refine ⟨[], ?_⟩
      rw [compress_eq_err1 input cfg enc s1 h0 h1]
      simp [traceOf, outState]
    · obtain ⟨Δ, hΔ⟩ := pass2run_log cfg enc s1
      rcases h2 : pass2run cfg enc s1 with s2 | s2 <;> rw [h2] at hΔ <;>
        simp only [outState] at hΔ
      · refine ⟨Δ, ?_⟩
        rw [compress_eq_err2 input cfg enc s1 s2 h0 h1 h2]
        simpa [traceOf, outState] using hΔ
      · refine ⟨Δ, ?_⟩
        rw [compress_eq_ok input cfg enc s1 s2 h0 h1 h2,
          traceOf_finishRun]
        simpa [outState] using hΔ
  · intro s1 h1 hle st hst
    have h2 : pass2run cfg enc s1 = .ok s1 :=
      pass2run_skip cfg enc s1 (pass2cond_false_of_le cfg s1 hle)
    rw [compress_eq_ok input cfg enc s1 s1 h0 h1 h2,
      traceOf_finishRun] at hst
    have hA1 := hA
    rw [h1] at hA1
    simp only [outState] at hA1
    exact hA1 st hst

theorem C8_pass_ordering_witness :
    (cfgC 10 true).force_scaling = false ∧
    (cfgC 10 true).target < inC.length ∧
    ((∀ st ∈ (outState (pass1run inC (cfgC 10 true) encOk)).log,
        st.scale10 = 10) ∧
      (∃ Δ, (traceOf (compress_gif inC (cfgC 10 true) encOk)).log =
        (outState (pass1run inC (cfgC 10 true) encOk)).log ++ Δ) ∧
      (∀ s1, pass1run inC (cfgC 10 true) encOk = .ok s1 →
        s1.best_size ≤ (cfgC 10 true).target →
        ∀ st ∈ (traceOf (compress_gif inC (cfgC 10 true) encOk)).log,
          st.scale10 = 10)) :=
  ⟨rfl, by decide, C8_pass_ordering inC (cfgC 10 true) encOk rfl (by decide)⟩

/-- C9: for every `frame_sample_rate` strictly between 1/2 and 1 the
sampling stride `int(1/sample_rate)` evaluates to 1, so the condition
`i mod stride != 0` never skips a frame and the frame count is unchanged:
such rates perform no frame decimation at all. -/
theorem C9_no_decimation (g : GIF) (sr df : ℚ) (h0 : 1 / 2 < sr)
    (h1 : sr < 1) :
    (truncInt (ratDiv 1 sr)).toNat = 1 ∧
    (_adjust_frames g sr df).frames.length = g.frames.length := by
  have hs := stride_eq_one sr h0 h1
  refine ⟨hs, ?_⟩
  rw [_adjust_frames_eq g sr df h1]
  simp only [hs]
  rw [List.filter_eq_self.mpr ?_, List.length_map, List.enumFrom_length]
  intro p hp
  simp [Nat.mod_one]

theorem C9_no_decimation_witness :
    (1 : ℚ) / 2 < 7 / 10 ∧ (7 / 10 : ℚ) < 1 ∧
    ((truncInt (ratDiv 1 (7 / 10))).toNat = 1 ∧
      (_adjust_frames g3 (7 / 10) 1).frames.length = g3.frames.length) :=
  ⟨by norm_num, by norm_num,
    C9_no_decimation g3 (7 / 10) 1 (by norm_num) (by norm_num)⟩

/-- C10: for every crop whose margins leave positive width and height on
an input with at least one frame, `_crop_gif` preserves the frame count,
each frame's display duration (defaulting to 100 when a frame carries
none), each frame's disposal mode (defaulting to 2 when absent), and the
animation's loop count; only the pixel dimensions change, to the cropped
width and height. -/
theorem C10_crop_preserves_metadata (g : GIF) (l t r b : ℕ)
    (hw : 0 < (g.w : ℤ) - l - r) (hh : 0 < (g.h : ℤ) - t - b)
    (hne : g.frames ≠ []) :
    (_crop_gif g l t r b).frames.length = g.frames.length ∧
    (_crop_gif g l t r b).frames.map Frame.duration =
      g.frames.map (fun f => some (f.duration.getD 100)) ∧
    (_crop_gif g l t r b).frames.map Frame.disposal =
      g.frames.map (fun f => some (f.disposal.getD 2)) ∧
    (_crop_gif g l t r b).loop = g.loop ∧
    (_crop_gif g l t r b).w = ((g.w : ℤ) - l - r).toNat ∧
    (_crop_gif g l t r b).h = ((g.h : ℤ) - t - b).toNat := by
  have hcond : ¬ ((g.w : ℤ) - l - r ≤ 0 ∨ (g.h : ℤ) - t - b ≤ 0) := by
    push_neg
    exact ⟨hw, hh⟩
  have hmap : ¬ (g.frames.map (cropFrame l t)).isEmpty = true := by
    simp [List.isEmpty_eq_true, hne]
  rw [_crop_gif]
  rw [if_neg hcond, if_neg hmap]
  refine ⟨by simp, ?_, ?_, rfl, rfl, rfl⟩
  · rw [List.map_map]
    exact List.map_congr_left fun f hf => rfl
  · rw [List.map_map]
    exact List.map_congr_left fun f hf => rfl

theorem C10_crop_preserves_metadata_witness :
    0 < (gW.w : ℤ) - 10 - 10 ∧ 0 < (gW.h : ℤ) - 10 - 10 ∧
    gW.frames ≠ [] ∧
    ((_crop_gif gW 10 10 10 10).frames.length = gW.frames.length ∧
      (_crop_gif gW 10 10 10 10).frames.map Frame.duration =
        gW.frames.map (fun f => some (f.duration.getD 100)) ∧
      (_crop_gif gW 10 10 10 10).frames.map Frame.disposal =
        gW.frames.map (fun f => some (f.disposal.getD 2)) ∧
      (_crop_gif gW 10 10 10 10).loop = gW.loop ∧
      (_crop_gif gW 10 10 10 10).w = ((gW.w : ℤ) - 10 - 10).toNat ∧
      (_crop_gif gW 10 10 10 10).h = ((gW.h : ℤ) - 10 - 10).toNat) :=
  ⟨by decide, by decide, List.cons_ne_nil _ _,
    C10_crop_preserves_metadata gW 10 10 10 10 (by decide) (by decide)
      (List.cons_ne_nil _ _)⟩
